import Mathlib

/-!
Shallow embedding of the RANDOM_GEN repository's mixing pipeline
(`src/random_api.py`) and proofs of the specification claims about it.

Modelling conventions:
  * Python arbitrary-precision non-negative integers are `Nat`; parameters that
    the CLI may pass as negative integers (`loops`, `mul_times`, `add_times`,
    `hash1_loops`, `remove_chars`, `final_div`) are `Int`, and Python's
    `for _ in range(n)` becomes iteration `n.toNat` times.
  * Python strings are `List Char`; Python byte strings are `List Nat`.
  * A Python exception aborts the computation: fallible operations return
    `Except PyError _`, with `PyError.valueError` for `ValueError`
    (`int(s, 16)` / `bytes.fromhex` on bad input) and
    `PyError.zeroDivisionError` for `ZeroDivisionError`.
  * The secure random source (`secrets.randbelow`) is modelled by an arbitrary
    tape `tape : Nat -> Nat` together with an explicit position threaded
    through the computation; the draw of `randbelow(bound)` at position `p`
    is `tape p % bound`, which realises every possible sequence of in-range
    draws.  `random.shuffle` (a distinct, non-crypto source in the code) is
    modelled by an arbitrary family of functions indexed by the pass number,
    assumed to permute their input.
  * `hashlib.shake_128(data).hexdigest(n)` / `shake_256` are external
    primitives.  Modelled from their documented contract: each returns the
    lowercase hex rendering of `n` digest bytes, i.e. `2*n` lowercase hex
    characters.  The raw digest nibbles are an arbitrary function of the
    input (fields `xof128` / `xof256` of `Env`), and the length law is the
    hypothesis `EnvOk`.
-/

namespace RandomGen

/-- The Python exceptions the pipeline can raise. -/
inductive PyError where
  | valueError
  | zeroDivisionError
deriving DecidableEq

/-- The lowercase hex character for one digest nibble, as produced by
`hexdigest` (48 is the code of the zero digit, 87 + 10 that of the letter a). -/
def nibbleChar (i : Fin 16) : Char :=
  if i.val < 10 then Char.ofNat (48 + i.val) else Char.ofNat (87 + i.val)

/-- A character is a lowercase hexadecimal digit. -/
def isLowerHexDigit (c : Char) : Bool :=
  (decide ('0' ≤ c) && decide (c ≤ '9')) || (decide ('a' ≤ c) && decide (c ≤ 'f'))

/-- The numeric value of one hex character, as accepted by Python
`int(s, 16)` and `bytes.fromhex` (digits, lowercase and uppercase letters). -/
def hexVal? (c : Char) : Option Nat :=
  if '0' ≤ c ∧ c ≤ '9' then some (c.toNat - 48)
  else if 'a' ≤ c ∧ c ≤ 'f' then some (c.toNat - 87)
  else if 'A' ≤ c ∧ c ≤ 'F' then some (c.toNat - 55)
  else none

/-- A string made of hex characters only (the parser accepts every
character of it). -/
def HexStr (s : List Char) : Prop :=
  ∀ c ∈ s, (hexVal? c).isSome = true

/-- One step of Python `int(s, 16)`: shift the accumulator and add the digit,
failing on a non-hex character. -/
def parseHexStep (acc : Except PyError Nat) (c : Char) : Except PyError Nat :=
  match acc, hexVal? c with
  | .ok a, some d => .ok (16 * a + d)
  | .ok _, none => .error .valueError
  | .error e, _ => .error e

/-- Python `int(s, 16)`: raises `ValueError` on the empty string or on a
non-hex character, otherwise the base-16 value of the string. -/
def parseHex (s : List Char) : Except PyError Nat :=
  match s with
  | [] => .error .valueError
  | _ => s.foldl parseHexStep (.ok 0)

/-- The value of one hex character, raising `ValueError` when it is not one. -/
def hexValE (c : Char) : Except PyError Nat :=
  match hexVal? c with
  | some d => .ok d
  | none => .error .valueError

/-- Python `bytes.fromhex`: pairs of hex characters become bytes; an odd-length
or non-hex string raises `ValueError`. -/
def fromhex : List Char → Except PyError (List Nat)
  | [] => .ok []
  | [_] => .error .valueError
  | c1 :: c2 :: rest => do
    let h ← hexValE c1
    let l ← hexValE c2
    let r ← fromhex rest
    pure ((16 * h + l) :: r)

/-- Python `int.bit_length()`: 0 for 0, otherwise the index of the highest set
bit plus one. -/
def bitLength (n : Nat) : Nat :=
  if n = 0 then 0 else Nat.log2 n + 1

/-- Python `v.to_bytes(k, "big")` restricted to values that fit: the `k`
low-order bytes of `v`, most significant first. -/
def toBytesBE (v : Nat) : Nat → List Nat
  | 0 => []
  | k + 1 => toBytesBE (v / 256) k ++ [v % 256]

/-- The byte encoding the source computes before every hash step:
`byte_len = max((value.bit_length() + 7) // 8, 1)` followed by
`value.to_bytes(byte_len, "big")`. -/
def pyEncode (v : Nat) : List Nat :=
  toBytesBE v (max ((bitLength v + 7) / 8) 1)

/-- Big-endian value of a byte string (used to state that `pyEncode` really
encodes its input). -/
def bytesToNat (bs : List Nat) : Nat :=
  bs.foldl (fun a b => 256 * a + b) 0

/-- The external capabilities the pipeline draws on: the `secrets` tape, the
`random.shuffle` permutations (indexed by pass number), and the raw digest
nibbles of the two SHAKE variants (data bytes and requested byte count in,
nibble list out). -/
structure Env where
  tape : Nat → Nat
  shuffle : Nat → List Char → List Char
  xof128 : List Nat → Nat → List (Fin 16)
  xof256 : List Nat → Nat → List (Fin 16)

/-- The documented contract of the external primitives: `hexdigest(n)` yields
exactly `n` bytes (`2*n` nibbles) and `random.shuffle` permutes its input. -/
def EnvOk (e : Env) : Prop :=
  (∀ d n, (e.xof128 d n).length = 2 * n) ∧
  (∀ d n, (e.xof256 d n).length = 2 * n) ∧
  (∀ k s, List.Perm (e.shuffle k s) s)

/-- Modelled from the documented behavior of
`hashlib.shake_128(data).hexdigest(n)`: the lowercase hex string of the `n`
digest bytes. -/
def hexdigest128 (e : Env) (data : List Nat) (n : Nat) : List Char :=
  (e.xof128 data n).map nibbleChar

/-- Modelled from the documented behavior of
`hashlib.shake_256(data).hexdigest(n)`: the lowercase hex string of the `n`
digest bytes. -/
def hexdigest256 (e : Env) (data : List Nat) (n : Nat) : List Char :=
  (e.xof256 data n).map nibbleChar

/-- Source `shake_hash(data, out_len_chars, alg)`: halve the hex-character
count to a byte count and call the chosen variant's `hexdigest`. -/
def shake_hash (e : Env) (data : List Nat) (out_len_chars : Nat) (alg : String) : List Char :=
  let out_len_bytes := out_len_chars / 2
  if alg = "shake_128" then hexdigest128 e data out_len_bytes
  else hexdigest256 e data out_len_bytes

/-- One `secrets.randbelow(bound)` draw at tape position `pos`. -/
def randbelow (t : Nat → Nat) (pos bound : Nat) : Nat :=
  t pos % bound

/-- Iteration core of `multiply_by_random`. -/
def mulRandAux (t : Nat → Nat) : Nat → Nat → Nat → Nat × Nat
  | 0, value, pos => (value, pos)
  | k + 1, value, pos => mulRandAux t k (value * (randbelow t pos (2 ^ 32) + 1)) (pos + 1)

/-- Source `multiply_by_random(value, times)`: `times` times multiply by
`secrets.randbelow(1 << 32) + 1`.  Returns the value and the new tape
position. -/
def multiply_by_random (t : Nat → Nat) (value : Nat) (times : Int) (pos : Nat) : Nat × Nat :=
  mulRandAux t times.toNat value pos

/-- Iteration core of `add_random`. -/
def addRandAux (t : Nat → Nat) : Nat → Nat → Nat → Nat × Nat
  | 0, value, pos => (value, pos)
  | k + 1, value, pos => addRandAux t k (value + randbelow t pos (2 ^ 32)) (pos + 1)

/-- Source `add_random(value, times)`: `times` times add
`secrets.randbelow(1 << 32)`. -/
def add_random (t : Nat → Nat) (value : Nat) (times : Int) (pos : Nat) : Nat × Nat :=
  addRandAux t times.toNat value pos

/-- Iteration core of `remove_random_chars`: delete a uniformly chosen index
from the current (shrinking) character list. -/
def removeAux (t : Nat → Nat) : Nat → List Char → Nat → List Char × Nat
  | 0, lst, pos => (lst, pos)
  | k + 1, lst, pos => removeAux t k (lst.eraseIdx (randbelow t pos lst.length)) (pos + 1)

/-- Source `remove_random_chars(s, n)`: `min(n, len(s))` times remove the
character at `secrets.randbelow(len(lst))`. -/
def remove_random_chars (t : Nat → Nat) (s : List Char) (n : Int) (pos : Nat) :
    List Char × Nat :=
  removeAux t (min n.toNat s.length) s pos

/-- Iteration core of `repeated_hashing`: encode, hash, reparse. -/
def repHashAux (e : Env) (hash_len_chars : Nat) (alg : String) : Nat → Nat → Except PyError Nat
  | 0, value => .ok value
  | k + 1, value =>
    (parseHex (shake_hash e (pyEncode value) hash_len_chars alg)).bind
      (repHashAux e hash_len_chars alg k)

/-- Source `repeated_hashing(value, hash_len_chars, loops, alg)`. -/
def repeated_hashing (e : Env) (value : Nat) (hash_len_chars : Nat) (loops : Int)
    (alg : String) : Except PyError Nat :=
  repHashAux e hash_len_chars alg loops.toNat value

/-- Source `sqrt_and_divide(value, divisor)`: `math.isqrt(value) // divisor`. -/
def sqrt_and_divide (value divisor : Nat) : Nat :=
  Nat.sqrt value / divisor

/-- Source `shuffle_string(s)`, with the `random.shuffle` permutation of the
current pass supplied by the environment. -/
def shuffle_string (sh : List Char → List Char) (s : List Char) : List Char :=
  sh s

/-- Python `a // b` on integers: floor division, raising `ZeroDivisionError`
on a zero divisor. -/
def pyFloorDiv (a b : Int) : Except PyError Int :=
  if b = 0 then .error .zeroDivisionError else .ok (Int.fdiv a b)

/-- Lines 115-122 of the source (step 8 of a pass): shuffle the `h4` string,
decode the first `hash2_len * 2` of its characters to bytes, hash them with
`shake_128` at `hash2_len` hex characters and parse the digest.  Returns the
digest string `h5` together with the parsed value. -/
def step8 (e : Env) (iter : Nat) (hash2_len : Nat) (h4 : List Char) :
    Except PyError (List Char × Nat) := do
  let shuffled := shuffle_string (e.shuffle iter) h4
  let shuffled_bytes ← fromhex (shuffled.take (hash2_len * 2))
  let h5 := shake_hash e shuffled_bytes hash2_len "shake_128"
  let value ← parseHex h5
  pure (h5, value)

/-- The named parameters of `pipeline`, with the source's default values. -/
structure PipelineCfg where
  loops : Int := 1
  mul_times : Int := 1
  add_times : Int := 1
  hash1_len : Nat := 1024
  hash1_loops : Int := 10
  hash2_len : Nat := 512
  remove_chars : Int := 10
  hash4_len : Nat := 2048
  final_div : Int := 8
deriving DecidableEq

/-- One iteration of the `for _ in range(loops)` body of `pipeline`
(lines 90-143 of the source), threading the value and the tape position. -/
def pipelinePass (e : Env) (cfg : PipelineCfg) (iter : Nat) (st : Nat × Nat) :
    Except PyError (Nat × Nat) := do
  let (value, pos) := multiply_by_random e.tape st.1 cfg.mul_times st.2
  let (value, pos) := add_random e.tape value cfg.add_times pos
  let value ← repeated_hashing e value cfg.hash1_len cfg.hash1_loops "shake_256"
  let value ← repeated_hashing e value cfg.hash2_len 1 "shake_128"
  let value := sqrt_and_divide value 4
  let h3 := shake_hash e (pyEncode value) cfg.hash1_len "shake_256"
  let h3_rev := h3.reverse
  let value ← parseHex h3_rev
  let h4 := shake_hash e (pyEncode value) cfg.hash1_len "shake_256"
  let value ← parseHex h4
  let (h5, value) ← step8 e iter cfg.hash2_len h4
  let (trimmed, pos) := remove_random_chars e.tape h5 cfg.remove_chars pos
  let tv ← parseHex trimmed
  let value := tv * (randbelow e.tape pos (2 ^ 16) + 1)
  let pos := pos + 1
  let h6 := shake_hash e (pyEncode value) cfg.hash4_len "shake_256"
  let value ← parseHex h6
  let value ← pyFloorDiv (Int.ofNat value) cfg.final_div
  let truncated_hex := h6.take 4096
  let value ← parseHex truncated_hex
  pure (value % 256, pos)

/-- `k` successive passes starting at pass number `i`. -/
def pipelineIter (e : Env) (cfg : PipelineCfg) : Nat → Nat → Nat × Nat →
    Except PyError (Nat × Nat)
  | _, 0, st => .ok st
  | i, k + 1, st => (pipelinePass e cfg i st).bind (pipelineIter e cfg (i + 1) k)

/-- Source `pipeline(initial_value, ...)`: run `loops` passes from the seed
and return the final value. -/
def pipeline (e : Env) (initial_value : Nat) (cfg : PipelineCfg) : Except PyError Nat :=
  (pipelineIter e cfg 0 cfg.loops.toNat (initial_value, 0)).map Prod.fst

/-- The pass with the dead `value //= final_div` statement elided, otherwise
identical to `pipelinePass`. -/
def pipelinePassND (e : Env) (cfg : PipelineCfg) (iter : Nat) (st : Nat × Nat) :
    Except PyError (Nat × Nat) := do
  let (value, pos) := multiply_by_random e.tape st.1 cfg.mul_times st.2
  let (value, pos) := add_random e.tape value cfg.add_times pos
  let value ← repeated_hashing e value cfg.hash1_len cfg.hash1_loops "shake_256"
  let value ← repeated_hashing e value cfg.hash2_len 1 "shake_128"
  let value := sqrt_and_divide value 4
  let h3 := shake_hash e (pyEncode value) cfg.hash1_len "shake_256"
  let h3_rev := h3.reverse
  let value ← parseHex h3_rev
  let h4 := shake_hash e (pyEncode value) cfg.hash1_len "shake_256"
  let value ← parseHex h4
  let (h5, value) ← step8 e iter cfg.hash2_len h4
  let (trimmed, pos) := remove_random_chars e.tape h5 cfg.remove_chars pos
  let tv ← parseHex trimmed
  let value := tv * (randbelow e.tape pos (2 ^ 16) + 1)
  let pos := pos + 1
  let h6 := shake_hash e (pyEncode value) cfg.hash4_len "shake_256"
  let value ← parseHex h6
  let truncated_hex := h6.take 4096
  let value ← parseHex truncated_hex
  pure (value % 256, pos)

/-- `k` successive division-elided passes starting at pass number `i`. -/
def pipelineIterND (e : Env) (cfg : PipelineCfg) : Nat → Nat → Nat × Nat →
    Except PyError (Nat × Nat)
  | _, 0, st => .ok st
  | i, k + 1, st => (pipelinePassND e cfg i st).bind (pipelineIterND e cfg (i + 1) k)

/-- The pipeline with the dead division elided. -/
def pipeline_noDiv (e : Env) (initial_value : Nat) (cfg : PipelineCfg) : Except PyError Nat :=
  (pipelineIterND e cfg 0 cfg.loops.toNat (initial_value, 0)).map Prod.fst

/-- A concrete environment for witnesses: an all-zero tape, identity shuffles
and all-zero digests. -/
def zeroEnv : Env :=
  { tape := fun _ => 0
    shuffle := fun _ s => s
    xof128 := fun _ n => List.replicate (2 * n) 0
    xof256 := fun _ n => List.replicate (2 * n) 0 }

/-- A small configuration (all counts 1, all hash lengths 2) used by
witnesses. -/
def cfgSmall : PipelineCfg :=
  { loops := 1, mul_times := 1, add_times := 1, hash1_len := 2, hash1_loops := 1,
    hash2_len := 2, remove_chars := 1, hash4_len := 2, final_div := 8 }

/-- `cfgSmall` with a zero final divisor. -/
def cfgDivZero : PipelineCfg :=
  { cfgSmall with final_div := 0 }

/-- `cfgSmall` with `remove_chars` equal to the `h5` digest length. -/
def cfgRemoveAll : PipelineCfg :=
  { cfgSmall with remove_chars := 2 }

/-- A configuration that is valid in the sense of the spec (positive counts,
even hash lengths, nonzero divisor) but deletes the whole `h5` digest. -/
def cfgRangeCex : PipelineCfg :=
  { cfgSmall with hash2_len := 4, remove_chars := 4 }

/-- `cfgSmall` with a non-positive pass count. -/
def cfgLoopsZero : PipelineCfg :=
  { cfgSmall with loops := 0 }

theorem except_ok_bind {α β : Type} (a : α) (f : α → Except PyError β) :
    (Except.ok a : Except PyError α).bind f = f a := rfl

theorem except_ok_seq {α β : Type} (a : α) (f : α → Except PyError β) :
    ((Except.ok a : Except PyError α) >>= f) = f a := rfl

theorem except_map_ok {α β : Type} (f : α → β) (a : α) :
    (f <$> (Except.ok a : Except PyError α)) = .ok (f a) := rfl

theorem except_err_seq {α β : Type} (er : PyError) (f : α → Except PyError β) :
    ((Except.error er : Except PyError α) >>= f) = .error er := rfl

theorem hexVal?_nibbleChar : ∀ i : Fin 16, hexVal? (nibbleChar i) = some i.val := by
  decide

theorem isLowerHexDigit_nibbleChar : ∀ i : Fin 16, isLowerHexDigit (nibbleChar i) = true := by
  decide

theorem hexStr_map_nibbleChar (l : List (Fin 16)) : HexStr (l.map nibbleChar) := by
  intro c hc
  obtain ⟨i, _, rfl⟩ := List.mem_map.mp hc
  rw [hexVal?_nibbleChar]
  rfl

theorem hexStr_sub {s s' : List Char} (hsub : s' ⊆ s) (h : HexStr s) : HexStr s' :=
  fun c hc => h c (hsub hc)

theorem parseFold_ok : ∀ s : List Char, HexStr s →
    ∀ a : Nat, ∃ n, s.foldl parseHexStep (.ok a) = .ok n := by
  intro s
  induction s with
  | nil => exact fun _ a => ⟨a, rfl⟩
  | cons c t ih =>
    intro h a
    have hc : (hexVal? c).isSome = true := h c (List.mem_cons_self c t)
    obtain ⟨d, hd⟩ := Option.isSome_iff_exists.mp hc
    have ht : HexStr t := fun x hx => h x (List.mem_cons_of_mem c hx)
    obtain ⟨n, hn⟩ := ih ht (16 * a + d)
    exact ⟨n, by simpa [List.foldl_cons, parseHexStep, hd] using hn⟩

theorem parseHex_ok {s : List Char} (hne : s ≠ []) (h : HexStr s) :
    ∃ n, parseHex s = .ok n := by
  cases s with
  | nil => exact absurd rfl hne
  | cons c t =>
    obtain ⟨n, hn⟩ := parseFold_ok (c :: t) h 0
    exact ⟨n, by simpa [parseHex] using hn⟩

theorem shake_hash_length (e : Env) (he : EnvOk e) (d : List Nat) (n : Nat) (alg : String) :
    (shake_hash e d n alg).length = 2 * (n / 2) := by
  unfold shake_hash hexdigest128 hexdigest256
  split
  · rw [List.length_map, he.1]
  · rw [List.length_map, he.2.1]

theorem shake_hash_hexStr (e : Env) (d : List Nat) (n : Nat) (alg : String) :
    HexStr (shake_hash e d n alg) := by
  unfold shake_hash hexdigest128 hexdigest256
  split
  · exact hexStr_map_nibbleChar _
  · exact hexStr_map_nibbleChar _

theorem fromhex_ok_fuel : ∀ (fuel : Nat) (s : List Char), s.length ≤ fuel → HexStr s →
    2 ∣ s.length → ∃ bs, fromhex s = .ok bs ∧ bs.length = s.length / 2 := by
  intro fuel
  induction fuel with
  | zero =>
    intro s hlen _ _
    have : s = [] := List.eq_nil_of_length_eq_zero (Nat.le_zero.mp hlen)
    subst this
    exact ⟨[], rfl, rfl⟩
  | succ m ih =>
    intro s hlen hhex hdvd
    match s with
    | [] => exact ⟨[], rfl, rfl⟩
    | [c] => simp at hdvd
    | c1 :: c2 :: rest =>
      have h1 : (hexVal? c1).isSome = true := hhex c1 (by simp)
      have h2 : (hexVal? c2).isSome = true := hhex c2 (by simp)
      obtain ⟨d1, hd1⟩ := Option.isSome_iff_exists.mp h1
      obtain ⟨d2, hd2⟩ := Option.isSome_iff_exists.mp h2
      have hrest : HexStr rest := fun x hx => hhex x (by simp [hx])
      have hrl : rest.length ≤ m := by
        simp only [List.length_cons] at hlen
        omega
      have hrd : 2 ∣ rest.length := by
        simp only [List.length_cons] at hdvd ⊢
        omega
      obtain ⟨bs, hbs, hbl⟩ := ih rest hrl hrest hrd
      refine ⟨(16 * d1 + d2) :: bs, ?_, ?_⟩
      · simp [fromhex, hexValE, hd1, hd2, hbs]
        rfl
      · simp only [List.length_cons, hbl]
        omega

theorem fromhex_ok {s : List Char} (hhex : HexStr s) (hdvd : 2 ∣ s.length) :
    ∃ bs, fromhex s = .ok bs ∧ bs.length = s.length / 2 :=
  fromhex_ok_fuel s.length s (Nat.le_refl _) hhex hdvd

theorem removeAux_length (t : Nat → Nat) :
    ∀ (k : Nat) (s : List Char) (pos : Nat), k ≤ s.length →
      ((removeAux t k s pos).1).length = s.length - k := by
  intro k
  induction k with
  | zero => intro s pos _; simp [removeAux]
  | succ m ih =>
    intro s pos hk
    have hpos : 0 < s.length := Nat.lt_of_lt_of_le (Nat.succ_pos m) hk
    have hidx : randbelow t pos s.length < s.length := Nat.mod_lt _ hpos
    have herase : (s.eraseIdx (randbelow t pos s.length)).length = s.length - 1 :=
      List.length_eraseIdx_of_lt hidx
    have hm : m ≤ (s.eraseIdx (randbelow t pos s.length)).length := by
      rw [herase]; omega
    rw [removeAux, ih _ _ hm, herase]
    omega

theorem removeAux_subset (t : Nat → Nat) :
    ∀ (k : Nat) (s : List Char) (pos : Nat), (removeAux t k s pos).1 ⊆ s := by
  intro k
  induction k with
  | zero => intro s pos; simp [removeAux]
  | succ m ih =>
    intro s pos
    rw [removeAux]
    exact fun c hc => List.eraseIdx_subset s _ (ih _ _ hc)

theorem remove_random_chars_length (t : Nat → Nat) (s : List Char) (n : Int) (pos : Nat) :
    ((remove_random_chars t s n pos).1).length = s.length - min n.toNat s.length :=
  removeAux_length t _ s pos (Nat.min_le_right _ _)

theorem repHashAux_ok (e : Env) (he : EnvOk e) (hlen : Nat) (alg : String)
    (h2 : 2 ≤ hlen) : ∀ (k v : Nat), ∃ v2, repHashAux e hlen alg k v = .ok v2 := by
  intro k
  induction k with
  | zero => exact fun v => ⟨v, rfl⟩
  | succ m ih =>
    intro v
    have hne : shake_hash e (pyEncode v) hlen alg ≠ [] := by
      have hl := shake_hash_length e he (pyEncode v) hlen alg
      intro hnil
      rw [hnil] at hl
      simp at hl
      omega
    obtain ⟨w, hw⟩ := parseHex_ok hne (shake_hash_hexStr e (pyEncode v) hlen alg)
    obtain ⟨v2, hv2⟩ := ih w
    exact ⟨v2, by rw [repHashAux, hw, except_ok_bind, hv2]⟩

theorem zeroEnvOk : EnvOk zeroEnv := by
  refine ⟨fun d n => ?_, fun d n => ?_, fun k s => ?_⟩
  · simp [zeroEnv]
  · simp [zeroEnv]
  · simp [zeroEnv]

theorem shake_hash_ne_nil (e : Env) (he : EnvOk e) (d : List Nat) {n : Nat} (hn : 2 ≤ n)
    (alg : String) : shake_hash e d n alg ≠ [] := by
  have hl := shake_hash_length e he d n alg
  intro hnil
  rw [hnil] at hl
  simp at hl
  omega

theorem step8_ok (e : Env) (he : EnvOk e) (iter n2 : Nat) (h4 : List Char)
    (hhex : HexStr h4) (hdvd : 2 ∣ h4.length) (hn2 : 2 ≤ n2) :
    ∃ bs v, step8 e iter n2 h4 = .ok (shake_hash e bs n2 "shake_128", v) := by
  have hperm := he.2.2 iter h4
  have hslen : (e.shuffle iter h4).length = h4.length := hperm.length_eq
  have hshex : HexStr (e.shuffle iter h4) := fun c hc => hhex c (hperm.mem_iff.mp hc)
  have hthex : HexStr ((e.shuffle iter h4).take (n2 * 2)) :=
    hexStr_sub (List.take_subset _ _) hshex
  have htdvd : 2 ∣ ((e.shuffle iter h4).take (n2 * 2)).length := by
    rw [List.length_take, hslen]
    rcases hdvd with ⟨m, hm⟩
    omega
  obtain ⟨bs, hbs, _⟩ := fromhex_ok hthex htdvd
  obtain ⟨v, hv⟩ := parseHex_ok (shake_hash_ne_nil e he bs hn2 "shake_128")
    (shake_hash_hexStr e bs n2 "shake_128")
  refine ⟨bs, v, ?_⟩
  simp [step8, shuffle_string, hbs, hv, except_ok_seq, except_map_ok]

theorem pass_ok (e : Env) (he : EnvOk e) (cfg : PipelineCfg) (iter : Nat) (st : Nat × Nat)
    (h1 : 2 ≤ cfg.hash1_len) (h2 : 2 ≤ cfg.hash2_len) (h2e : 2 ∣ cfg.hash2_len)
    (h4l : 2 ≤ cfg.hash4_len) (hfd : cfg.final_div ≠ 0)
    (hrc : cfg.remove_chars.toNat < cfg.hash2_len) :
    ∃ v p, pipelinePass e cfg iter st = .ok (v, p) ∧ v ≤ 255 := by
  rcases hM : multiply_by_random e.tape st.1 cfg.mul_times st.2 with ⟨v1, p1⟩
  rcases hA : add_random e.tape v1 cfg.add_times p1 with ⟨v2, p2⟩
  obtain ⟨v3, e3⟩ := repHashAux_ok e he cfg.hash1_len "shake_256" h1 cfg.hash1_loops.toNat v2
  obtain ⟨v4, e4⟩ := repHashAux_ok e he cfg.hash2_len "shake_128" h2 1 v3
  have hrevne :
      (shake_hash e (pyEncode (sqrt_and_divide v4 4)) cfg.hash1_len "shake_256").reverse ≠ [] := by
    simpa using shake_hash_ne_nil e he (pyEncode (sqrt_and_divide v4 4)) h1 "shake_256"
  have hrevhex :
      HexStr (shake_hash e (pyEncode (sqrt_and_divide v4 4)) cfg.hash1_len "shake_256").reverse :=
    fun c hc => shake_hash_hexStr e _ _ _ c (List.mem_reverse.mp hc)
  obtain ⟨v6, e6⟩ := parseHex_ok hrevne hrevhex
  obtain ⟨v7, e7⟩ := parseHex_ok (shake_hash_ne_nil e he (pyEncode v6) h1 "shake_256")
    (shake_hash_hexStr e (pyEncode v6) cfg.hash1_len "shake_256")
  have h4dvd : 2 ∣ (shake_hash e (pyEncode v6) cfg.hash1_len "shake_256").length := by
    rw [shake_hash_length e he]
    exact Dvd.intro _ rfl
  obtain ⟨bs, v8, e8⟩ := step8_ok e he iter cfg.hash2_len _
    (shake_hash_hexStr e (pyEncode v6) cfg.hash1_len "shake_256") h4dvd h2
  rcases hR : remove_random_chars e.tape (shake_hash e bs cfg.hash2_len "shake_128")
      cfg.remove_chars p2 with ⟨trm, p9⟩
  have hh5len : (shake_hash e bs cfg.hash2_len "shake_128").length = cfg.hash2_len := by
    rw [shake_hash_length e he, Nat.mul_div_cancel' h2e]
  have htrmlen : trm.length = cfg.hash2_len - min cfg.remove_chars.toNat cfg.hash2_len := by
    have hlen := remove_random_chars_length e.tape
      (shake_hash e bs cfg.hash2_len "shake_128") cfg.remove_chars p2
    rw [hR, hh5len] at hlen
    exact hlen
  have htrmne : trm ≠ [] := by
    intro hnil
    rw [hnil] at htrmlen
    simp at htrmlen
    omega
  have htrmhex : HexStr trm := by
    have hsub := removeAux_subset e.tape
      (min cfg.remove_chars.toNat (shake_hash e bs cfg.hash2_len "shake_128").length)
      (shake_hash e bs cfg.hash2_len "shake_128") p2
    rw [show removeAux e.tape
        (min cfg.remove_chars.toNat (shake_hash e bs cfg.hash2_len "shake_128").length)
        (shake_hash e bs cfg.hash2_len "shake_128") p2 =
        remove_random_chars e.tape (shake_hash e bs cfg.hash2_len "shake_128")
          cfg.remove_chars p2 from rfl, hR] at hsub
    exact hexStr_sub hsub (shake_hash_hexStr e bs cfg.hash2_len "shake_128")
  obtain ⟨tv, e9⟩ := parseHex_ok htrmne htrmhex
  obtain ⟨v10, e10⟩ := parseHex_ok
    (shake_hash_ne_nil e he (pyEncode (tv * (randbelow e.tape p9 (2 ^ 16) + 1))) h4l "shake_256")
    (shake_hash_hexStr e (pyEncode (tv * (randbelow e.tape p9 (2 ^ 16) + 1))) cfg.hash4_len
      "shake_256")
  have e11 : pyFloorDiv (Int.ofNat v10) cfg.final_div =
      .ok (Int.fdiv (Int.ofNat v10) cfg.final_div) := by
    simp [pyFloorDiv, hfd]
  have htrne :
      (shake_hash e (pyEncode (tv * (randbelow e.tape p9 (2 ^ 16) + 1))) cfg.hash4_len
        "shake_256").take 4096 ≠ [] := by
    intro hnil
    have hcl := congrArg List.length hnil
    rw [List.length_take, shake_hash_length e he] at hcl
    simp at hcl
    omega
  have htrhex :
      HexStr ((shake_hash e (pyEncode (tv * (randbelow e.tape p9 (2 ^ 16) + 1))) cfg.hash4_len
        "shake_256").take 4096) :=
    hexStr_sub (List.take_subset _ _) (shake_hash_hexStr e _ _ _)
  obtain ⟨v12, e12⟩ := parseHex_ok htrne htrhex
  have hpow : (2 : Nat) ^ 16 = 65536 := by norm_num
  rw [hpow] at e10 e12
  refine ⟨v12 % 256, p9 + 1, ?_, ?_⟩
  · simp [pipelinePass, repeated_hashing, hM, hA, e3, e4, e6, e7, e8, hR, e9, e10, e12,
      pyFloorDiv, hfd, except_ok_seq, except_map_ok, Int.toNat_one]
  · omega

theorem iter_ok (e : Env) (he : EnvOk e) (cfg : PipelineCfg)
    (h1 : 2 ≤ cfg.hash1_len) (h2 : 2 ≤ cfg.hash2_len) (h2e : 2 ∣ cfg.hash2_len)
    (h4l : 2 ≤ cfg.hash4_len) (hfd : cfg.final_div ≠ 0)
    (hrc : cfg.remove_chars.toNat < cfg.hash2_len) :
    ∀ (k i : Nat) (st : Nat × Nat), 1 ≤ k →
      ∃ v p, pipelineIter e cfg i k st = .ok (v, p) ∧ v ≤ 255 := by
  intro k
  induction k with
  | zero => intro i st h; omega
  | succ m ih =>
    intro i st _
    obtain ⟨v, p, hp, hv⟩ := pass_ok e he cfg i st h1 h2 h2e h4l hfd hrc
    cases m with
    | zero =>
      refine ⟨v, p, ?_, hv⟩
      rw [pipelineIter, hp, except_ok_bind]
      rfl
    | succ m2 =>
      obtain ⟨v2, p2, hp2, hv2⟩ := ih (i + 1) (v, p) (Nat.succ_le_succ (Nat.zero_le m2))
      refine ⟨v2, p2, ?_, hv2⟩
      rw [pipelineIter, hp, except_ok_bind, hp2]

theorem toBytesBE_length : ∀ (k v : Nat), (toBytesBE v k).length = k := by
  intro k
  induction k with
  | zero => intro v; rfl
  | succ m ih =>
    intro v
    rw [toBytesBE]
    simp [ih]

theorem head?_append_left {α : Type} (xs ys : List α) (h : xs ≠ []) :
    (xs ++ ys).head? = xs.head? := by
  cases xs with
  | nil => exact absurd rfl h
  | cons a t => rfl

theorem toBytesBE_head : ∀ (k v : Nat), v < 256 ^ (k + 1) →
    (toBytesBE v (k + 1)).head? = some (v / 256 ^ k) := by
  intro k
  induction k with
  | zero =>
    intro v hv
    rw [toBytesBE, toBytesBE]
    simp [Nat.mod_eq_of_lt (by simpa using hv)]
  | succ m ih =>
    intro v hv
    have hne : toBytesBE (v / 256) (m + 1) ≠ [] := by
      intro hnil
      have hl := congrArg List.length hnil
      rw [toBytesBE_length] at hl
      simp at hl
    have hlt : v / 256 < 256 ^ (m + 1) := by
      rw [Nat.div_lt_iff_lt_mul (by norm_num)]
      calc v < 256 ^ (m + 2) := hv
      _ = 256 ^ (m + 1) * 256 := by ring
    rw [toBytesBE, head?_append_left _ _ hne, ih (v / 256) hlt,
      Nat.div_div_eq_div_mul]
    congr 2
    ring

theorem bytesToNat_toBytesBE : ∀ (k v : Nat), v < 256 ^ k →
    bytesToNat (toBytesBE v k) = v := by
  intro k
  induction k with
  | zero =>
    intro v hv
    simp at hv
    simp [hv, toBytesBE, bytesToNat]
  | succ m ih =>
    intro v hv
    have hlt : v / 256 < 256 ^ m := by
      rw [Nat.div_lt_iff_lt_mul (by norm_num)]
      calc v < 256 ^ (m + 1) := hv
      _ = 256 ^ m * 256 := by ring
    have hrec := ih (v / 256) hlt
    rw [toBytesBE]
    unfold bytesToNat at hrec ⊢
    rw [List.foldl_append, hrec]
    simp [Nat.div_add_mod]

theorem lt_two_pow_bitLength (v : Nat) (hv : 0 < v) : v < 2 ^ bitLength v := by
  rw [bitLength, if_neg (Nat.pos_iff_ne_zero.mp hv), Nat.log2_eq_log_two]
  exact Nat.lt_pow_succ_log_self (by norm_num) v

theorem two_pow_le_bitLength (v : Nat) (hv : 0 < v) : 2 ^ (bitLength v - 1) ≤ v := by
  rw [bitLength, if_neg (Nat.pos_iff_ne_zero.mp hv), Nat.log2_eq_log_two]
  simpa using Nat.pow_log_le_self 2 (Nat.pos_iff_ne_zero.mp hv)

theorem bitLength_pos (v : Nat) (hv : 0 < v) : 0 < bitLength v := by
  rw [bitLength, if_neg (Nat.pos_iff_ne_zero.mp hv)]
  omega

theorem passND_eq (e : Env) (cfg : PipelineCfg) (iter : Nat) (st : Nat × Nat)
    (hfd : cfg.final_div ≠ 0) :
    pipelinePass e cfg iter st = pipelinePassND e cfg iter st := by
  simp [pipelinePass, pipelinePassND, pyFloorDiv, hfd, except_ok_seq]

theorem iterND_eq (e : Env) (cfg : PipelineCfg) (hfd : cfg.final_div ≠ 0) :
    ∀ (k i : Nat) (st : Nat × Nat),
      pipelineIter e cfg i k st = pipelineIterND e cfg i k st := by
  intro k
  induction k with
  | zero => intro i st; rfl
  | succ m ih =>
    intro i st
    rw [pipelineIter, pipelineIterND, passND_eq e cfg i st hfd]
    cases h : pipelinePassND e cfg i st with
    | error er => rfl
    | ok st2 =>
      rw [except_ok_bind, except_ok_bind]
      exact ih (i + 1) st2

/-- C1 (amended): for every environment satisfying the primitives' contract,
every non-negative seed and every configuration that is valid per the spec
(positive pass and repeat counts, even positive hash lengths, nonzero final
divisor) and in addition removes fewer characters than the `h5` digest holds
(`remove_chars < hash2_len`), the pipeline returns a value in `[0, 255]`. -/
theorem pipeline_in_range (e : Env) (he : EnvOk e) (seed : Nat) (cfg : PipelineCfg)
    (hl : 1 ≤ cfg.loops) (hm : 1 ≤ cfg.mul_times) (ha : 1 ≤ cfg.add_times)
    (hh1 : 1 ≤ cfg.hash1_loops)
    (he1 : 2 ∣ cfg.hash1_len) (hp1 : 0 < cfg.hash1_len)
    (he2 : 2 ∣ cfg.hash2_len) (hp2 : 0 < cfg.hash2_len)
    (he4 : 2 ∣ cfg.hash4_len) (hp4 : 0 < cfg.hash4_len)
    (hfd : cfg.final_div ≠ 0) (hrc : cfg.remove_chars < (cfg.hash2_len : Int)) :
    ∃ v, pipeline e seed cfg = .ok v ∧ v ≤ 255 := by
  have h1 : 2 ≤ cfg.hash1_len := by
    rcases he1 with ⟨m, hm1⟩
    omega
  have h2 : 2 ≤ cfg.hash2_len := by
    rcases he2 with ⟨m, hm2⟩
    omega
  have h4l : 2 ≤ cfg.hash4_len := by
    rcases he4 with ⟨m, hm4⟩
    omega
  have hrcn : cfg.remove_chars.toNat < cfg.hash2_len := by omega
  have hk : 1 ≤ cfg.loops.toNat := by omega
  obtain ⟨v, p, hp, hv⟩ :=
    iter_ok e he cfg h1 h2 he2 h4l hfd hrcn cfg.loops.toNat 0 (seed, 0) hk
  refine ⟨v, ?_, hv⟩
  rw [pipeline, hp]
  rfl

/-- Witness for `pipeline_in_range` at the all-zero environment and a small
valid configuration. -/
theorem pipeline_in_range_w :
    ∃ v, pipeline zeroEnv 0 cfgSmall = .ok v ∧ v ≤ 255 :=
  pipeline_in_range zeroEnv zeroEnvOk 0 cfgSmall (by decide) (by decide) (by decide)
    (by decide) (by decide) (by decide) (by decide) (by decide) (by decide) (by decide)
    (by decide) (by decide)

/-- Counterexample to C1 as stated: `cfgRangeCex` is valid per the spec's
configuration rules (positive counts, even positive hash lengths, nonzero
final divisor; `remove_chars` is unconstrained by them), the environment
satisfies the primitives' contract, and yet the pipeline raises `ValueError`
instead of returning a value in `[0, 255]`. -/
theorem pipeline_range_cex :
    EnvOk zeroEnv ∧
    (1 ≤ cfgRangeCex.loops ∧ 1 ≤ cfgRangeCex.mul_times ∧ 1 ≤ cfgRangeCex.add_times ∧
      1 ≤ cfgRangeCex.hash1_loops ∧ 2 ∣ cfgRangeCex.hash1_len ∧ 0 < cfgRangeCex.hash1_len ∧
      2 ∣ cfgRangeCex.hash2_len ∧ 0 < cfgRangeCex.hash2_len ∧ 2 ∣ cfgRangeCex.hash4_len ∧
      0 < cfgRangeCex.hash4_len ∧ cfgRangeCex.final_div ≠ 0) ∧
    pipeline zeroEnv 0 cfgRangeCex = .error .valueError :=
  ⟨zeroEnvOk, by decide, rfl⟩

/-- C2: refuted by evaluation.  With `final_div = 0` the pipeline does NOT
fail with a configuration error before the passes: it raises
`ZeroDivisionError` at the division step of the first pass, and random draws
have been consumed before that (the multiply step alone has already advanced
the `secrets` tape from position 0 to 1). -/
theorem pipeline_final_div_zero_raises :
    pipeline zeroEnv 0 cfgDivZero = .error .zeroDivisionError ∧
    (multiply_by_random zeroEnv.tape 0 cfgDivZero.mul_times 0).2 = 1 :=
  ⟨rfl, rfl⟩

/-- C3: the first half holds (deleting `remove_chars ≥ length(s)` characters
yields the empty string without error — here from the actual `h5` digest of
the run), but the pipeline then raises `ValueError` on `int("", 16)` instead
of treating the empty string as 0. -/
theorem pipeline_remove_all_raises :
    (remove_random_chars zeroEnv.tape (shake_hash zeroEnv [0] 2 "shake_128") 2 0).1 = [] ∧
    pipeline zeroEnv 0 cfgRemoveAll = .error .valueError :=
  ⟨rfl, rfl⟩

/-- C4: the `value //= final_div` assignment in step 10 is dead work: for
every nonzero `final_div`, every seed and every environment (hence the same
sequence of random draws), the pipeline with the division elided returns
exactly the same result. -/
theorem pipeline_div_dead (e : Env) (seed : Nat) (cfg : PipelineCfg)
    (hfd : cfg.final_div ≠ 0) :
    pipeline e seed cfg = pipeline_noDiv e seed cfg := by
  rw [pipeline, pipeline_noDiv, iterND_eq e cfg hfd cfg.loops.toNat 0 (seed, 0)]

/-- Witness for `pipeline_div_dead` at a concrete environment and
configuration. -/
theorem pipeline_div_dead_w :
    pipeline zeroEnv 0 cfgSmall = pipeline_noDiv zeroEnv 0 cfgSmall :=
  pipeline_div_dead zeroEnv 0 cfgSmall (by decide)

/-- C5: the byte encoding used before every hash step
(`max((bit_length+7)//8, 1)` bytes, big-endian) is the minimal big-endian
encoding: it encodes the value faithfully, `0` becomes exactly one zero
byte, and every `v > 0` becomes `ceil(bit_length(v)/8)` bytes whose first
byte is nonzero. -/
theorem pyEncode_minimal :
    pyEncode 0 = [0] ∧
    (∀ v : Nat, bytesToNat (pyEncode v) = v) ∧
    (∀ v : Nat, 0 < v →
      (pyEncode v).length = (bitLength v + 7) / 8 ∧
      ∃ b, (pyEncode v).head? = some b ∧ b ≠ 0) := by
  refine ⟨rfl, ?_, ?_⟩
  · intro v
    apply bytesToNat_toBytesBE
    by_cases hv : v = 0
    · subst hv
      norm_num
    · have hlt := lt_two_pow_bitLength v (Nat.pos_of_ne_zero hv)
      calc v < 2 ^ bitLength v := hlt
      _ ≤ 2 ^ (8 * max ((bitLength v + 7) / 8) 1) :=
        Nat.pow_le_pow_right (by norm_num) (by omega)
      _ = 256 ^ max ((bitLength v + 7) / 8) 1 := by
        rw [Nat.pow_mul]
  · intro v hv
    have hbl : 0 < bitLength v := bitLength_pos v hv
    have hmax : max ((bitLength v + 7) / 8) 1 = (bitLength v + 7) / 8 := by omega
    have hvlt : v < 256 ^ ((bitLength v + 7) / 8) := by
      have hlt := lt_two_pow_bitLength v hv
      calc v < 2 ^ bitLength v := hlt
      _ ≤ 2 ^ (8 * ((bitLength v + 7) / 8)) := Nat.pow_le_pow_right (by norm_num) (by omega)
      _ = 256 ^ ((bitLength v + 7) / 8) := by
        rw [Nat.pow_mul]

    constructor
    · rw [pyEncode, toBytesBE_length, hmax]
    · have hge : 256 ^ ((bitLength v + 7) / 8 - 1) ≤ v := by
        have hle := two_pow_le_bitLength v hv
        calc 256 ^ ((bitLength v + 7) / 8 - 1)
            = 2 ^ (8 * ((bitLength v + 7) / 8 - 1)) := by
              rw [Nat.pow_mul]
        _ ≤ 2 ^ (bitLength v - 1) := Nat.pow_le_pow_right (by norm_num) (by omega)
        _ ≤ v := hle
      have hL : (bitLength v + 7) / 8 = ((bitLength v + 7) / 8 - 1) + 1 := by omega
      refine ⟨v / 256 ^ ((bitLength v + 7) / 8 - 1), ?_, ?_⟩
      · rw [pyEncode, hmax, hL]
        exact toBytesBE_head _ v (hL ▸ hvlt)
      · have hpos : 0 < v / 256 ^ ((bitLength v + 7) / 8 - 1) :=
          Nat.div_pos hge (Nat.pos_pow_of_pos _ (by norm_num))
        omega

/-- Witness for `pyEncode_minimal` at `v = 256`: two bytes, as
`ceil(9/8) = 2`. -/
theorem pyEncode_minimal_w :
    pyEncode 0 = [0] ∧ (pyEncode 256).length = (bitLength 256 + 7) / 8 :=
  ⟨pyEncode_minimal.1, (pyEncode_minimal.2.2 256 (by norm_num)).1⟩

/-- C6: for an even positive requested length `n` the wrapper returns a
string of exactly `n` lowercase hex characters, obtained by requesting
`n / 2` bytes from the underlying XOF primitive of the chosen variant. -/
theorem shake_hash_even_spec (e : Env) (he : EnvOk e) (data : List Nat) (n : Nat)
    (alg : String) (hdvd : 2 ∣ n) (hpos : 0 < n) :
    (shake_hash e data n alg).length = n ∧
    (∀ c ∈ shake_hash e data n alg, isLowerHexDigit c = true) ∧
    shake_hash e data n alg =
      (if alg = "shake_128" then hexdigest128 e data (n / 2)
        else hexdigest256 e data (n / 2)) := by
  refine ⟨?_, ?_, rfl⟩
  · rw [shake_hash_length e he, Nat.mul_div_cancel' hdvd]
  · intro c hc
    unfold shake_hash hexdigest128 hexdigest256 at hc
    split at hc
    · obtain ⟨i, _, rfl⟩ := List.mem_map.mp hc
      exact isLowerHexDigit_nibbleChar i
    · obtain ⟨i, _, rfl⟩ := List.mem_map.mp hc
      exact isLowerHexDigit_nibbleChar i

/-- Witness for `shake_hash_even_spec` at `n = 4`. -/
theorem shake_hash_even_spec_w :
    (shake_hash zeroEnv [] 4 "shake_256").length = 4 :=
  (shake_hash_even_spec zeroEnv zeroEnvOk [] 4 "shake_256" (by decide) (by decide)).1

/-- C7: for an odd requested length `n` the wrapper floor-divides to `n / 2`
bytes, so the digest has exactly `n - 1` hex characters. -/
theorem shake_hash_odd_spec (e : Env) (he : EnvOk e) (data : List Nat) (n : Nat)
    (alg : String) (hodd : n % 2 = 1) :
    (shake_hash e data n alg).length = n - 1 ∧
    shake_hash e data n alg =
      (if alg = "shake_128" then hexdigest128 e data (n / 2)
        else hexdigest256 e data (n / 2)) := by
  refine ⟨?_, rfl⟩
  rw [shake_hash_length e he]
  omega

/-- Witness for `shake_hash_odd_spec` at `n = 5`: four characters come
back. -/
theorem shake_hash_odd_spec_w :
    (shake_hash zeroEnv [] 5 "shake_128").length = 5 - 1 :=
  (shake_hash_odd_spec zeroEnv zeroEnvOk [] 5 "shake_128" (by decide)).1

/-- C8: step 8 takes the first `2 * hash2_len` characters of the shuffled
copy of the `h4` digest (a string, not the current integer value), decodes
them to exactly `hash2_len` bytes whenever `2 * hash2_len ≤ hash1_len`,
hashes those bytes with `shake_128` at output length `hash2_len`, and the
step's value is the parse of that digest. -/
theorem step8_slice_decode (e : Env) (he : EnvOk e) (iter n1 n2 : Nat) (data : List Nat)
    (h1e : 2 ∣ n1) (h12 : 2 * n2 ≤ n1) :
    ∃ bs,
      fromhex ((shuffle_string (e.shuffle iter)
        (shake_hash e data n1 "shake_256")).take (n2 * 2)) = .ok bs ∧
      bs.length = n2 ∧
      step8 e iter n2 (shake_hash e data n1 "shake_256") =
        (parseHex (shake_hash e bs n2 "shake_128")).map
          (fun v => (shake_hash e bs n2 "shake_128", v)) := by
  have hperm := he.2.2 iter (shake_hash e data n1 "shake_256")
  have hlen : (e.shuffle iter (shake_hash e data n1 "shake_256")).length = n1 := by
    rw [hperm.length_eq, shake_hash_length e he, Nat.mul_div_cancel' h1e]
  have hshex : HexStr (e.shuffle iter (shake_hash e data n1 "shake_256")) :=
    fun c hc => shake_hash_hexStr e data n1 "shake_256" c (hperm.mem_iff.mp hc)
  have hthex :
      HexStr ((e.shuffle iter (shake_hash e data n1 "shake_256")).take (n2 * 2)) :=
    hexStr_sub (List.take_subset _ _) hshex
  have htlen :
      ((e.shuffle iter (shake_hash e data n1 "shake_256")).take (n2 * 2)).length = n2 * 2 := by
    rw [List.length_take, hlen]
    omega
  obtain ⟨bs, hbs, hbl⟩ := fromhex_ok hthex (by rw [htlen]; exact ⟨n2, by ring⟩)
  refine ⟨bs, by simpa [shuffle_string] using hbs, by rw [hbl, htlen]; omega, ?_⟩
  simp [step8, shuffle_string, hbs, except_ok_seq]
  rfl

/-- Witness for `step8_slice_decode` at `hash1_len = 4`, `hash2_len = 2`. -/
theorem step8_slice_decode_w :
    ∃ bs,
      fromhex ((shuffle_string (zeroEnv.shuffle 0)
        (shake_hash zeroEnv [0] 4 "shake_256")).take (2 * 2)) = .ok bs ∧
      bs.length = 2 ∧
      step8 zeroEnv 0 2 (shake_hash zeroEnv [0] 4 "shake_256") =
        (parseHex (shake_hash zeroEnv bs 2 "shake_128")).map
          (fun v => (shake_hash zeroEnv bs 2 "shake_128", v)) :=
  step8_slice_decode zeroEnv zeroEnvOk 0 4 2 [0] (by decide) (by decide)

/-- C9: a repetition count of zero is the identity for both randomized
arithmetic helpers — the value is unchanged and no random draw is consumed
(the tape position does not advance). -/
theorem repeat_zero_identity (t : Nat → Nat) (v pos : Nat) :
    multiply_by_random t v 0 pos = (v, pos) ∧ add_random t v 0 pos = (v, pos) :=
  ⟨rfl, rfl⟩

/-- C10: with a non-positive `loops` the pipeline performs no validation and
no passes: it returns the seed unchanged and the `secrets` tape position
stays at 0 (no randomness consumed). -/
theorem pipeline_loops_nonpos (e : Env) (seed : Nat) (cfg : PipelineCfg)
    (h : cfg.loops ≤ 0) :
    pipeline e seed cfg = .ok seed ∧
    pipelineIter e cfg 0 cfg.loops.toNat (seed, 0) = .ok (seed, 0) := by
  have h0 : cfg.loops.toNat = 0 := by omega
  constructor
  · rw [pipeline, h0]
    rfl
  · rw [h0]
    rfl

/-- Witness for `pipeline_loops_nonpos`: a seed of 300 comes back unchanged,
outside `[0, 255]`. -/
theorem pipeline_loops_nonpos_w :
    pipeline zeroEnv 300 cfgLoopsZero = .ok 300 ∧ 255 < 300 :=
  ⟨(pipeline_loops_nonpos zeroEnv 300 cfgLoopsZero (by decide)).1, by norm_num⟩

end RandomGen
